import Mathlib

/-!
# Verification of the runepkg script-analysis engine

A shallow embedding of the script classification, validation, metadata,
statistics and highlighting code of the `runepkg` repository
(`src/script.rs`, `src/exec.rs`, `gccrs-src/runepkg_script.rs`,
`gccrs-src/runepkg_highlight.rs`), together with theorems settling the
specification claims about it.

Text is modelled as `List Char` (a Rust `&str` is a sequence of Unicode
scalar values); byte-level operations of the source (UTF-8 validation,
byte-indexed slicing, byte length) are modelled explicitly through the
UTF-8 encoding length of each scalar value.
-/

set_option maxRecDepth 4000

/-- The single-quote character U+0027 (written via its code to keep the
source free of bare apostrophes). -/
def squote : Char := Char.ofNat 39

/-- The NUL character U+0000. -/
def nulChar : Char := Char.ofNat 0

/-- The ESC character U+001B, the first character of every ANSI color
escape sequence emitted by the highlighter. -/
def escChar : Char := Char.ofNat 27

/-- Rust `char::is_whitespace`: the Unicode `White_Space` property. -/
def isRustWhitespace (c : Char) : Bool :=
  let n := c.toNat
  (0x9 ≤ n && n ≤ 0xD) || n == 0x20 || n == 0x85 || n == 0xA0 ||
  n == 0x1680 || (0x2000 ≤ n && n ≤ 0x200A) || n == 0x2028 ||
  n == 0x2029 || n == 0x202F || n == 0x205F || n == 0x3000

/-- Rust `str::trim`: strip `is_whitespace` characters from both ends. -/
def rustTrim (l : List Char) : List Char :=
  ((l.dropWhile isRustWhitespace).reverse.dropWhile isRustWhitespace).reverse

/-- Split a character list at every newline; the result always has one
more part than there are newlines. -/
def splitOnNl : List Char → List (List Char)
  | [] => [[]]
  | c :: cs =>
    if c = '\n' then [] :: splitOnNl cs
    else
      match splitOnNl cs with
      | [] => [[c]]
      | p :: ps => (c :: p) :: ps

/-- Strip a single trailing carriage return, as Rust `str::lines` does to
each produced line. -/
def stripCr (l : List Char) : List Char :=
  if l.getLast? = some '\r' then l.dropLast else l

/-- Rust `str::lines`: split at `\n`, drop a final empty fragment (so a
trailing newline does not yield an empty last line), strip one trailing
`\r` from each line. -/
def rustLines (s : List Char) : List (List Char) :=
  let ps := splitOnNl s
  (if ps.getLast? = some [] then ps.dropLast else ps).map stripCr

/-- `leadsWith pat l` is true when `pat` is a prefix of `l`
(Rust `str::starts_with`). -/
def leadsWith : List Char → List Char → Bool
  | [], _ => true
  | _ :: _, [] => false
  | p :: ps, c :: cs => p == c && leadsWith ps cs

/-- First index at which `pat` occurs in the list, if any
(Rust `str::find` with a string pattern), counting from `i`. -/
def findSubGo (pat : List Char) : List Char → Nat → Option Nat
  | l, i =>
    if leadsWith pat l then some i
    else
      match l with
      | [] => none
      | _ :: t => findSubGo pat t (i + 1)

/-- First index at which `pat` occurs in `hay`. For the ASCII patterns
used by this code, character indices agree with Rust's byte indices on
any text whose prefix up to the match is ASCII. -/
def findSub (hay pat : List Char) : Option Nat := findSubGo pat hay 0

/-- Rust `str::contains` with a string pattern. The patterns used by the
source are ASCII, so byte-level substring search agrees with search over
scalar values. -/
def strContains (hay pat : List Char) : Bool := (findSub hay pat).isSome

theorem length_dropWhile_le' (p : Char → Bool) (l : List Char) :
    (l.dropWhile p).length ≤ l.length := by
  induction l with
  | nil => simp [List.dropWhile]
  | cons c cs ih =>
    by_cases h : p c
    · simp [List.dropWhile, h]; omega
    · simp [List.dropWhile, h]

/-- Character-at-a-time loop of `splitWs`; `cur` is the reversed current
token. -/
def splitWsGo : List Char → List Char → List (List Char)
  | [], cur => if cur = [] then [] else [cur.reverse]
  | c :: cs, cur =>
    if isRustWhitespace c then
      if cur = [] then splitWsGo cs [] else cur.reverse :: splitWsGo cs []
    else splitWsGo cs (c :: cur)

/-- Rust `str::split_whitespace`: maximal runs of non-whitespace
characters, with whitespace runs discarded. -/
def splitWs (l : List Char) : List (List Char) := splitWsGo l []

/-- Model of Rust `char::to_lowercase` for one character, as a sequence
of characters: ASCII letters, the Latin-1 uppercase block, and the
special cases whose lowercase changes the UTF-8 byte length
(`İ` U+0130, `ẞ` U+1E9E, the Kelvin sign U+212A, the Angstrom sign
U+212B); identity on the remaining code points, which this development
never evaluates it at. -/
def rustLowerChar (c : Char) : List Char :=
  let n := c.toNat
  if 0x41 ≤ n && n ≤ 0x5A then [Char.ofNat (n + 0x20)]
  else if (0xC0 ≤ n && n ≤ 0xDE) && n != 0xD7 then [Char.ofNat (n + 0x20)]
  else if n == 0x130 then ['i', Char.ofNat 0x307]
  else if n == 0x1E9E then [Char.ofNat 0xDF]
  else if n == 0x212A then ['k']
  else if n == 0x212B then [Char.ofNat 0xE5]
  else [c]

/-- Model of Rust `str::to_lowercase`. -/
def rustToLowercase (l : List Char) : List Char := l.flatMap rustLowerChar

/-- Number of bytes of the UTF-8 encoding of one Unicode scalar value
(Rust `char::len_utf8`). -/
def utf8Len (c : Char) : Nat :=
  if c.toNat < 0x80 then 1
  else if c.toNat < 0x800 then 2
  else if c.toNat < 0x10000 then 3
  else 4

theorem utf8Len_pos (c : Char) : 1 ≤ utf8Len c := by
  unfold utf8Len; split_ifs <;> omega

/-- Total UTF-8 byte length of a text (Rust `str::len`). -/
def utf8Length (l : List Char) : Nat := (l.map utf8Len).sum

/-- First occurrence of `pat` in the list, reported as the UTF-8 byte
offset of the match (Rust `str::find`, whose positions are byte
indices), scanning from byte offset `i`. For an ASCII pattern a
byte-level match can only start on a character boundary, so the
character-level prefix scan coincides with Rust's byte search. -/
def findSubBytesGo (pat : List Char) : List Char → Nat → Option Nat
  | l, i =>
    if leadsWith pat l then some i
    else
      match l with
      | [] => none
      | c :: t => findSubBytesGo pat t (i + utf8Len c)

/-- First byte offset at which the ASCII pattern `pat` occurs in `hay`. -/
def findSubBytes (hay pat : List Char) : Option Nat := findSubBytesGo pat hay 0

/-- Drop `n` bytes from the UTF-8 encoding of a text and reinterpret the
remainder as text: the Rust slice `&s[n..]`. Returns `none` when `n`
falls strictly inside a multi-byte character or past the end, where the
Rust code panics. -/
def byteDrop : Nat → List Char → Option (List Char)
  | 0, l => some l
  | _ + 1, [] => none
  | n + 1, c :: cs =>
    if n + 1 < utf8Len c then none
    else byteDrop (n + 1 - utf8Len c) cs

/-- `byteDrop` lands on a character boundary at or before `n` characters. -/
theorem byteDrop_eq_drop {n : Nat} {l t : List Char} :
    byteDrop n l = some t → ∃ k, k ≤ n ∧ t = l.drop k := by
  induction l generalizing n with
  | nil =>
    match n with
    | 0 =>
      intro h
      have h' : some ([] : List Char) = some t := h
      exact ⟨0, Nat.le_refl 0, (Option.some.inj h').symm⟩
    | _ + 1 => intro h; simp [byteDrop] at h
  | cons c cs ih =>
    match n with
    | 0 =>
      intro h
      have h' : some (c :: cs) = some t := h
      exact ⟨0, Nat.le_refl 0, (Option.some.inj h').symm⟩
    | m + 1 =>
      intro h
      unfold byteDrop at h
      split at h
      · exact absurd h (by simp)
      · obtain ⟨k, hk, ht⟩ := ih h
        refine ⟨k + 1, ?_, by simpa using ht⟩
        have := utf8Len_pos c
        omega

/-- Is a continuation byte `0x80..0xBF`. -/
def isCont (b : Nat) : Bool := 0x80 ≤ b && b ≤ 0xBF

/-- Strict UTF-8 decoding of a byte sequence (Rust
`std::str::from_utf8`): rejects overlong encodings, surrogate code
points and values above U+10FFFF. -/
def utf8Decode? : List Nat → Option (List Char)
  | [] => some []
  | b :: rest =>
    if b < 0x80 then
      (utf8Decode? rest).map (Char.ofNat b :: ·)
    else if 0xC2 ≤ b && b ≤ 0xDF then
      match rest with
      | c1 :: rest2 =>
        if isCont c1 then
          (utf8Decode? rest2).map (Char.ofNat ((b - 0xC0) * 0x40 + (c1 - 0x80)) :: ·)
        else none
      | [] => none
    else if 0xE0 ≤ b && b ≤ 0xEF then
      match rest with
      | c1 :: c2 :: rest2 =>
        let lo1 := if b == 0xE0 then 0xA0 else 0x80
        let hi1 := if b == 0xED then 0x9F else 0xBF
        if (lo1 ≤ c1 && c1 ≤ hi1) && isCont c2 then
          (utf8Decode? rest2).map
            (Char.ofNat ((b - 0xE0) * 0x1000 + (c1 - 0x80) * 0x40 + (c2 - 0x80)) :: ·)
        else none
      | _ => none
    else if 0xF0 ≤ b && b ≤ 0xF4 then
      match rest with
      | c1 :: c2 :: c3 :: rest2 =>
        let lo1 := if b == 0xF0 then 0x90 else 0x80
        let hi1 := if b == 0xF4 then 0x8F else 0xBF
        if (lo1 ≤ c1 && c1 ≤ hi1) && (isCont c2 && isCont c3) then
          (utf8Decode? rest2).map
            (Char.ofNat ((b - 0xF0) * 0x40000 + (c1 - 0x80) * 0x1000 +
              (c2 - 0x80) * 0x40 + (c3 - 0x80)) :: ·)
        else none
      | _ => none
    else none

/-- Result of an FFI entry point that returns a C string: the null
pointer sentinel, or an allocated string. -/
inductive CStrResult where
  | null : CStrResult
  | str : List Char → CStrResult
deriving DecidableEq

/-- `ScriptType` from `src/script.rs` and `gccrs-src/runepkg_script.rs`. -/
inductive ScriptType where
  | Shell | Python | Perl | Ruby | Unknown
deriving DecidableEq

/-- Debug rendering of a `ScriptType` (Rust `{:?}`). -/
def scriptTypeRepr : ScriptType → List Char
  | .Shell => "Shell".data
  | .Python => "Python".data
  | .Perl => "Perl".data
  | .Ruby => "Ruby".data
  | .Unknown => "Unknown".data

/-- `HighlightScheme` from `gccrs-src/runepkg_highlight.rs`. -/
inductive HighlightScheme where
  | Nano | Vim | Default
deriving DecidableEq

namespace script
/-! ## Embedding of `src/runepkg/src/script.rs` -/

/-- `validate_quotes` loop: state is `(in_single_quote, in_double_quote,
escape_next)`, stepping through the characters in source order; at end of
text both quote flags must be clear. -/
def validate_quotes_go : List Char → Bool → Bool → Bool → Bool
  | [], inS, inD, _ => !inS && !inD
  | c :: cs, inS, inD, esc =>
    if esc then validate_quotes_go cs inS inD false
    else if c = '\\' then validate_quotes_go cs inS inD true
    else if c = squote && !inD then validate_quotes_go cs (!inS) inD false
    else if c = '"' && !inS then validate_quotes_go cs inS (!inD) false
    else validate_quotes_go cs inS inD false

/-- `validate_quotes` from `src/script.rs`. -/
def validate_quotes (s : List Char) : Bool :=
  validate_quotes_go s false false false

/-- `validate_brackets` loop: three signed counters, a quote flag and the
current quote character; a quote character (when not already inside a
quoted region) opens a region, the matching character closes it, brackets
inside a region are not counted, and any counter going negative fails
immediately. -/
def validate_brackets_go :
    List Char → Int → Int → Int → Bool → Char → Bool
  | [], br, bk, pr, _, _ => br == 0 && bk == 0 && pr == 0
  | c :: cs, br, bk, pr, inq, qc =>
    if !inq && (c == '"' || c == squote) then
      validate_brackets_go cs br bk pr true c
    else if inq then
      if c == qc then validate_brackets_go cs br bk pr false qc
      else validate_brackets_go cs br bk pr true qc
    else
      let br' := if c == '\x7b' then br + 1 else if c == '\x7d' then br - 1 else br
      let bk' := if c == '[' then bk + 1 else if c == ']' then bk - 1 else bk
      let pr' := if c == '(' then pr + 1 else if c == ')' then pr - 1 else pr
      if br' < 0 || bk' < 0 || pr' < 0 then false
      else validate_brackets_go cs br' bk' pr' inq qc

/-- `validate_brackets` from `src/script.rs` (`quote_char` starts as NUL). -/
def validate_brackets (s : List Char) : Bool :=
  validate_brackets_go s 0 0 0 false nulChar

/-- Content-heuristic fallback of `detect_script_type_internal`
(`src/script.rs`): case-insensitive whole-text substring tests in fixed
priority Python, Perl, Ruby, Shell, defaulting to Shell. -/
def contentFallback (s : List Char) : ScriptType :=
  let lower := rustToLowercase s
  if strContains lower "import ".data || strContains lower "def ".data ||
      strContains lower "print(".data || strContains lower "from ".data ||
      strContains lower "class ".data then .Python
  else if strContains lower "use strict".data || strContains lower "my $".data ||
      strContains lower "print \"".data ||
      strContains lower "#!/usr/bin/perl".data then .Perl
  else if strContains lower "def ".data || strContains lower "puts ".data ||
      strContains lower "require ".data || strContains lower "class ".data ||
      strContains lower "end".data then .Ruby
  else if strContains lower "if [".data || strContains lower "echo ".data ||
      strContains lower "for ".data || strContains lower "while ".data ||
      strContains lower "function ".data then .Shell
  else .Shell

/-- `detect_script_type_internal` from `src/script.rs`: shebang substring
tests on the whole text after `#!` on the first line, in priority
python, perl, ruby, sh/bash/zsh; otherwise the content fallback. -/
def detect_script_type_internal (s : List Char) : ScriptType :=
  match (rustLines s).head? with
  | none => .Unknown
  | some fl =>
    if leadsWith "#!".data fl then
      let sheb := fl.drop 2
      if strContains sheb "python".data then .Python
      else if strContains sheb "perl".data then .Perl
      else if strContains sheb "ruby".data then .Ruby
      else if strContains sheb "sh".data || strContains sheb "bash".data ||
          strContains sheb "zsh".data then .Shell
      else contentFallback s
    else contentFallback s

/-- The `(pattern, field name)` table of `extract_metadata_from_comment`. -/
def metadataPatterns : List (List Char × List Char) :=
  [("author:".data, "Author".data), ("version:".data, "Version".data),
   ("description:".data, "Description".data), ("date:".data, "Date".data),
   ("license:".data, "License".data), ("copyright:".data, "Copyright".data),
   ("filename:".data, "Filename".data), ("usage:".data, "Usage".data),
   ("purpose:".data, "Purpose".data), ("note:".data, "Note".data),
   ("todo:".data, "Todo".data), ("fixme:".data, "Fixme".data),
   ("bug:".data, "Bug".data), ("created:".data, "Created".data),
   ("modified:".data, "Modified".data), ("updated:".data, "Updated".data)]

/-- Result of scanning one comment line for a metadata field: the Rust
byte slice `comment[value_start..]` can panic, so besides emitting a
field or matching nothing the scan can abort the whole call. -/
inductive CommentScan where
  | panic : CommentScan
  | noMatch : CommentScan
  | found : List Char → CommentScan
deriving DecidableEq

/-- Pattern loop of `extract_metadata_from_comment`. The source takes
`pos`, the BYTE index of the pattern in `comment_lower`
(`comment_lower.find`, collapsed with the preceding `contains` test,
which succeeds exactly when `find` does), and slices the ORIGINAL
comment at byte `value_start = pos + pattern.len()` after checking it
against the original's byte length; when lowercasing has changed the
UTF-8 length of a preceding character that byte index can fall inside a
character of `comment`, where the Rust slice panics (`CommentScan.panic`,
modelled by `byteDrop` returning `none`). On a match with a nonempty
trimmed value it emits `Field: value`, otherwise it continues with the
remaining patterns. -/
def tryPatterns : List (List Char × List Char) → List Char → List Char → CommentScan
  | [], _, _ => .noMatch
  | (pat, field) :: rest, comment, lower =>
    match findSubBytes lower pat with
    | some pos =>
      let vs := pos + utf8Length pat
      if vs < utf8Length comment then
        match byteDrop vs comment with
        | none => .panic
        | some tail =>
          let v := rustTrim tail
          if v = [] then tryPatterns rest comment lower
          else .found (field ++ ": ".data ++ v)
      else tryPatterns rest comment lower
    | none => tryPatterns rest comment lower

/-- `extract_metadata_from_comment` from `src/script.rs`. -/
def extract_metadata_from_comment (comment : List Char) : CommentScan :=
  tryPatterns metadataPatterns comment (rustToLowercase comment)

/-- Line loop of `extract_metadata_internal` (`src/script.rs`): enumerate
lines, break once the zero-based line number exceeds 50, skip blank
lines, extract from comment lines, and drop the header flag at the first
non-comment line. -/
def emGo : List (List Char) → Nat → Bool → List (List Char) → Option (List (List Char))
  | [], _, _, acc => some acc.reverse
  | l :: ls, n, inH, acc =>
    if n > 50 then some acc.reverse
    else
      let t := rustTrim l
      if t = [] then emGo ls (n + 1) inH acc
      else if t.head? = some '#' then
        match extract_metadata_from_comment (rustTrim (t.drop 1)) with
        | .panic => none
        | .found m => emGo ls (n + 1) inH (m :: acc)
        | .noMatch => emGo ls (n + 1) inH acc
      else if inH && leadsWith "#!/".data t then
        emGo ls (n + 1) inH (("Interpreter: ".data ++ t) :: acc)
      else emGo ls (n + 1) false acc

/-- `extract_metadata_internal` from `src/script.rs`; `none` models a
panic escaping from the comment-field slicing. -/
def extract_metadata_internal (s : List Char) : Option (List Char) :=
  (emGo (rustLines s) 0 true []).map
    (fun ms => if ms = [] then "No metadata found".data else List.intercalate ['\n'] ms)

/-- Line counters of `get_script_stats_internal`: `(comment, blank,
code)` accumulated in source order. -/
def statsGo : List (List Char) → Nat → Nat → Nat → Nat × Nat × Nat
  | [], cm, bl, cd => (cm, bl, cd)
  | l :: ls, cm, bl, cd =>
    let t := rustTrim l
    if t = [] then statsGo ls cm (bl + 1) cd
    else if t.head? = some '#' then statsGo ls (cm + 1) bl cd
    else statsGo ls cm bl (cd + 1)

/-- The five statistics of `get_script_stats_internal`. -/
structure ScriptStats where
  total : Nat
  code : Nat
  comment : Nat
  blank : Nat
  chars : Nat
deriving DecidableEq

/-- The numeric part of `get_script_stats_internal` from `src/script.rs`. -/
def get_script_stats_counts (s : List Char) : ScriptStats :=
  let lines := rustLines s
  let (cm, bl, cd) := statsGo lines 0 0 0
  { total := lines.length, code := cd, comment := cm, blank := bl,
    chars := utf8Length s }

/-- `get_script_stats_internal` from `src/script.rs`: the formatted
report string. -/
def get_script_stats_internal (s : List Char) : List Char :=
  let st := get_script_stats_counts s
  "Script Statistics:\nType: ".data ++ scriptTypeRepr (detect_script_type_internal s) ++
  "\nTotal lines: ".data ++ (toString st.total).data ++
  "\nCode lines: ".data ++ (toString st.code).data ++
  "\nComment lines: ".data ++ (toString st.comment).data ++
  "\nBlank lines: ".data ++ (toString st.blank).data ++
  "\nTotal characters: ".data ++ (toString st.chars).data

/-- `rust_detect_script_type` from `src/script.rs`. The C pointer/length
pair is modelled as an optional byte list (`none` = null pointer) plus a
signed length; the `len` bytes read by `from_raw_parts` are the first
`len` bytes of the list. -/
def rust_detect_script_type (content : Option (List Nat)) (len : Int) : ScriptType :=
  match content with
  | none => .Unknown
  | some bytes =>
    if len ≤ 0 then .Unknown
    else
      match utf8Decode? (bytes.take len.toNat) with
      | none => .Unknown
      | some s => detect_script_type_internal s

/-- `rust_extract_script_metadata` from `src/script.rs`: null pointer /
non-positive length / invalid UTF-8 give the null sentinel, and
`CString::new` gives the null sentinel when the produced string contains
a NUL byte. The outer `Option` distinguishes a panic (`none`) from a
normal return. -/
def rust_extract_script_metadata (content : Option (List Nat)) (len : Int) :
    Option CStrResult :=
  match content with
  | none => some .null
  | some bytes =>
    if len ≤ 0 then some .null
    else
      match utf8Decode? (bytes.take len.toNat) with
      | none => some .null
      | some s =>
        match extract_metadata_internal s with
        | none => none
        | some m => some (if m.contains nulChar then .null else .str m)

/-- `rust_get_script_stats` from `src/script.rs`. -/
def rust_get_script_stats (content : Option (List Nat)) (len : Int) : CStrResult :=
  match content with
  | none => .null
  | some bytes =>
    if len ≤ 0 then .null
    else
      match utf8Decode? (bytes.take len.toNat) with
      | none => .null
      | some s =>
        let m := get_script_stats_internal s
        if m.contains nulChar then .null else .str m

end script

namespace exec
/-! ## Embedding of `src/runepkg/src/exec.rs` -/

/-- `extract_shebang_interpreter` from `src/exec.rs`: `None` when there is
no line or the first line does not start with `#!`; otherwise the first
whitespace token after the marker, `None` when there is none. -/
def extract_shebang_interpreter (s : List Char) : Option (List Char) :=
  match (rustLines s).head? with
  | none => none
  | some fl =>
    if leadsWith "#!".data fl then
      match (splitWs (fl.drop 2)).head? with
      | none => none
      | some t => some t
    else none

/-- `extract_shebang_args` from `src/exec.rs`: all whitespace tokens after
the `#!` marker (interpreter included), truncated to `max_args` tokens. -/
def extract_shebang_args (s : List Char) (max_args : Nat) : List (List Char) :=
  match (rustLines s).head? with
  | none => []
  | some fl =>
    if leadsWith "#!".data fl then (splitWs (fl.drop 2)).take max_args
    else []

/-- `rust_parse_shebang` from `src/exec.rs`: boundary checks, then the
interpreter with the `"/bin/sh"` default, materialized as a C string. -/
def rust_parse_shebang (content : Option (List Nat)) (len : Int) : CStrResult :=
  match content with
  | none => .null
  | some bytes =>
    if len ≤ 0 then .null
    else
      match utf8Decode? (bytes.take len.toNat) with
      | none => .null
      | some s =>
        let interp := (extract_shebang_interpreter s).getD "/bin/sh".data
        if interp.contains nulChar then .null else .str interp

end exec

namespace gccrs
/-! ## Embedding of `gccrs-src/runepkg_highlight.rs` and
`gccrs-src/runepkg_script.rs` -/

/-- ANSI color constants of `runepkg_highlight.rs`. -/
def COLOR_RESET : List Char := "\x1b[0m".data

def COLOR_COMMENT : List Char := "\x1b[32m".data

def COLOR_STRING : List Char := "\x1b[33m".data

def COLOR_KEYWORD : List Char := "\x1b[34m".data

def COLOR_VARIABLE : List Char := "\x1b[36m".data

def COLOR_OPERATOR : List Char := "\x1b[35m".data

/-- `scheme_to_intensity` from `runepkg_highlight.rs`. -/
def scheme_to_intensity : HighlightScheme → Bool
  | .Nano => false
  | .Vim => true
  | .Default => false

/-- `is_shell_keyword` from `runepkg_highlight.rs`. -/
def is_shell_keyword (w : List Char) : Bool :=
  ["if", "then", "else", "elif", "fi",
   "for", "while", "until", "do", "done",
   "case", "esac", "function", "return",
   "local", "export", "declare", "readonly",
   "echo", "printf", "read", "test", "true", "false"].map String.data
    |>.contains w

/-- Model of Rust `char::is_alphabetic` (Unicode `Alphabetic`) on the
code points this development evaluates it at: ASCII letters and the
Latin-1 letter block (U+00C0..U+00FF except `×` and `÷`). -/
def isRustAlphabetic (c : Char) : Bool :=
  c.isAlpha ||
  (0xC0 ≤ c.toNat && c.toNat ≤ 0xFF && c.toNat != 0xD7 && c.toNat != 0xF7)

/-- Model of Rust `char::is_alphanumeric` on the same code points. -/
def isRustAlphanumeric (c : Char) : Bool := isRustAlphabetic c || c.isDigit

/-- Characters consumed by the variable branch of `highlight_line_simple`. -/
def varChar (c : Char) : Bool :=
  isRustAlphanumeric c || c == '_' || c == '\x7b' || c == '\x7d'

/-- Characters consumed by the word branch of `highlight_line_simple`. -/
def wordChar (c : Char) : Bool := isRustAlphanumeric c || c == '_'

/-- The operator set `"=<>!&|"` of `highlight_line_simple`. -/
def isOpChar (c : Char) : Bool :=
  c == '=' || c == '<' || c == '>' || c == '!' || c == '&' || c == '|'

/-- Inner string-literal loop of `highlight_line_simple`: scan until the
matching quote `q`, keeping a backslash together with the character it
escapes; returns the characters pushed (closing quote included when
found) and the characters remaining after the scan. -/
def quoteScan (q : Char) : List Char → List Char × List Char
  | [] => ([], [])
  | c :: cs =>
    if c = q then ([c], cs)
    else if c = '\\' then
      match cs with
      | [] => (['\\'], [])
      | d :: ds =>
        let r := quoteScan q ds
        (c :: d :: r.1, r.2)
    else
      let r := quoteScan q cs
      (c :: r.1, r.2)

theorem quoteScan_suffix (q : Char) (l : List Char) :
    (quoteScan q l).2 <:+ l := by
  have H : ∀ n (l : List Char), l.length ≤ n → (quoteScan q l).2 <:+ l := by
    intro n
    induction n with
    | zero =>
      intro l hl
      cases l with
      | nil => simp [quoteScan]
      | cons c cs => simp at hl
    | succ n ih =>
      intro l hl
      cases l with
      | nil => simp [quoteScan]
      | cons c cs =>
        unfold quoteScan
        split_ifs
        · exact List.suffix_cons c cs
        · cases cs with
          | nil => simp
          | cons d ds =>
            have h := ih ds (by simp only [List.length_cons] at hl ⊢; omega)
            exact h.trans ((List.suffix_cons d ds).trans (List.suffix_cons c (d :: ds)))
        · have h := ih cs (by simp only [List.length_cons] at hl; omega)
          exact h.trans (List.suffix_cons c cs)
  exact H l.length l (Nat.le_refl _)

theorem quoteScan_length (q : Char) (l : List Char) :
    (quoteScan q l).2.length ≤ l.length :=
  (quoteScan_suffix q l).length_le

theorem quoteScan_mem (q : Char) (l : List Char) :
    ∀ c ∈ l, c ∈ (quoteScan q l).1 ∨ c ∈ (quoteScan q l).2 := by
  have H : ∀ n (l : List Char), l.length ≤ n →
      ∀ c ∈ l, c ∈ (quoteScan q l).1 ∨ c ∈ (quoteScan q l).2 := by
    intro n
    induction n with
    | zero =>
      intro l hl
      cases l with
      | nil => simp
      | cons c cs => simp at hl
    | succ n ih =>
      intro l hl x hx
      cases l with
      | nil => simp at hx
      | cons c cs =>
        rcases List.mem_cons.mp hx with rfl | hx
        · unfold quoteScan
          split_ifs
          · simp
          · cases cs with
            | nil => simp_all
            | cons d ds => simp
          · simp
        · unfold quoteScan
          split_ifs
          · right; simpa using hx
          · cases cs with
            | nil => simp at hx
            | cons d ds =>
              rcases List.mem_cons.mp hx with rfl | hx
              · left; simp
              · rcases ih ds (by simp only [List.length_cons] at hl; omega) x hx with h | h
                · left; simp [h]
                · right; simpa using h
          · rcases ih cs (by simp only [List.length_cons] at hl; omega) x hx with h | h
            · left; simp [h]
            · right; simpa using h
  exact H l.length l (Nat.le_refl _)

/-- Main loop of `highlight_line_simple` (`runepkg_highlight.rs`).
`line` is the full original line, `rest` the not-yet-scanned suffix; the
loop index `i` of the source equals `line.length - rest.length`. The
comment branch pushes the Rust byte slice `&line[i..]` with `i` a
character index; `none` models the panic when that byte index is not a
character boundary. -/
def hlsGo (line : List Char) : List Char → Option (List Char)
  | [] => some []
  | c :: cs =>
    if c = '#' then
      match byteDrop (line.length - (c :: cs).length) line with
      | none => none
      | some tail => some (COLOR_COMMENT ++ tail ++ COLOR_RESET)
    else if c = '"' || c = squote then
      let r := quoteScan c cs
      (hlsGo line r.2).map (fun k => COLOR_STRING ++ c :: r.1 ++ COLOR_RESET ++ k)
    else if c = '$' then
      let name := cs.takeWhile varChar
      (hlsGo line (cs.dropWhile varChar)).map
        (fun k => COLOR_VARIABLE ++ c :: name ++ COLOR_RESET ++ k)
    else if isRustAlphabetic c then
      let w := c :: cs.takeWhile wordChar
      (hlsGo line (cs.dropWhile wordChar)).map
        (fun k => (if is_shell_keyword w then COLOR_KEYWORD ++ w ++ COLOR_RESET else w) ++ k)
    else if isOpChar c then
      (hlsGo line cs).map (fun k => COLOR_OPERATOR ++ c :: COLOR_RESET ++ k)
    else
      (hlsGo line cs).map (fun k => c :: k)
termination_by rest => rest.length
decreasing_by
  · have := gccrs.quoteScan_length c cs; simp only [List.length_cons]; omega
  · have := length_dropWhile_le' varChar cs; simp only [List.length_cons]; omega
  · have := length_dropWhile_le' wordChar cs; simp only [List.length_cons]; omega
  · simp only [List.length_cons]; omega
  · simp only [List.length_cons]; omega

/-- `highlight_line_simple` from `runepkg_highlight.rs`; the `_intense`
argument is accepted and ignored, exactly as in the source. -/
def highlight_line_simple (line : List Char) (_intense : Bool) : Option (List Char) :=
  hlsGo line line

/-- Per-line loop of `highlight_script_internal`: highlight each line and
append a newline; a panic on any line aborts the whole call. -/
def hsGo (intense : Bool) : List (List Char) → Option (List Char)
  | [] => some []
  | l :: ls =>
    match highlight_line_simple l intense with
    | none => none
    | some h => (hsGo intense ls).map (fun r => h ++ '\n' :: r)

/-- `highlight_script_internal` from `runepkg_highlight.rs`. -/
def highlight_script_internal (s : List Char) (scheme : HighlightScheme) : Option (List Char) :=
  hsGo (scheme_to_intensity scheme) (rustLines s)

/-- `rust_highlight_shell_script` from `runepkg_highlight.rs`. The outer
`Option` distinguishes a panic (`none`) from a normal return; a normal
return is the null sentinel or an allocated C string. -/
def rust_highlight_shell_script (content : Option (List Nat)) (len : Int)
    (scheme : HighlightScheme) : Option CStrResult :=
  match content with
  | none => some .null
  | some bytes =>
    if len ≤ 0 then some .null
    else
      match utf8Decode? (bytes.take len.toNat) with
      | none => some .null
      | some s =>
        match highlight_script_internal s scheme with
        | none => none
        | some out =>
          if out.contains nulChar then some .null else some (.str out)

/-- State machine stripping ANSI color escape sequences: an ESC starts a
sequence that runs up to and including the next `m`. -/
def stripAnsiGo : Bool → List Char → List Char
  | _, [] => []
  | true, c :: cs => if c = 'm' then stripAnsiGo false cs else stripAnsiGo true cs
  | false, c :: cs =>
    if c = escChar then stripAnsiGo true cs else c :: stripAnsiGo false cs

/-- Strip all ANSI color escape sequences from a text. -/
def stripAnsi (l : List Char) : List Char := stripAnsiGo false l

/-- Line loop of `extract_metadata_internal` from
`gccrs-src/runepkg_script.rs`: only the first 20 lines are inspected and
matching comment lines are joined with newlines. -/
def emGoG : List (List Char) → Nat → List Char → List Char
  | [], _, acc => acc
  | l :: ls, n, acc =>
    if n ≥ 20 then acc
    else
      let t := rustTrim l
      if t.head? = some '#' then
        let comment := rustTrim (t.drop 1)
        let lower := rustToLowercase comment
        if strContains lower "author:".data || strContains lower "description:".data ||
            strContains lower "version:".data || strContains lower "usage:".data then
          emGoG ls (n + 1) (if acc = [] then comment else acc ++ '\n' :: comment)
        else emGoG ls (n + 1) acc
      else emGoG ls (n + 1) acc

/-- `extract_metadata_internal` from `gccrs-src/runepkg_script.rs`. -/
def extract_metadata_internal (s : List Char) : List Char :=
  let m := emGoG (rustLines s) 0 []
  if m = [] then "No metadata found".data else m

end gccrs

/-! ## Specification-side definitions

These definitions follow the wording of the specification (not the
source); the refinement theorems below compare them with the embedded
code. -/

/-- Which kind of quoted region is open. -/
inductive QuoteKind where
  | single | double
deriving DecidableEq

/-- The quote character that opens and closes a region of each kind. -/
def quoteKindChar : QuoteKind → Char
  | .single => squote
  | .double => '"'

/-- One step of the specification's quote-balance pass: state is the
currently open region (at most one kind at a time) plus a pending-escape
flag; a backslash escapes the next character unconditionally, and a quote
character of the other kind is ignored while a region is open. -/
def quoteStepSpec : Option QuoteKind × Bool → Char → Option QuoteKind × Bool
  | (st, true), _ => (st, false)
  | (st, false), c =>
    if c = '\\' then (st, true)
    else if c = squote then
      match st with
      | none => (some .single, false)
      | some .single => (none, false)
      | some .double => (some .double, false)
    else if c = '"' then
      match st with
      | none => (some .double, false)
      | some .double => (none, false)
      | some .single => (some .single, false)
    else (st, false)

/-- Specification quote balance: a single forward pass with
`quoteStepSpec`, failing exactly when a region is still open at end of
text. -/
def quoteBalanceSpec (s : List Char) : Bool :=
  (s.foldl quoteStepSpec (none, false)).1 == none

/-- Specification bracket balance, with the quoted-region tracking of the
quote-balance check including its backslash-escape rule, independent
signed counters, no counting inside a quoted region, immediate failure on
a negative counter, and all counters zero at end of text. -/
def bracketSpecGo : List Char → Int → Int → Int → Option QuoteKind → Bool → Bool
  | [], br, bk, pr, _, _ => br == 0 && bk == 0 && pr == 0
  | c :: cs, br, bk, pr, q, esc =>
    if esc then bracketSpecGo cs br bk pr q false
    else if c == '\\' then bracketSpecGo cs br bk pr q true
    else
      match q with
      | some k =>
        if c == quoteKindChar k then bracketSpecGo cs br bk pr none false
        else bracketSpecGo cs br bk pr (some k) false
      | none =>
        if c == squote then bracketSpecGo cs br bk pr (some .single) false
        else if c == '"' then bracketSpecGo cs br bk pr (some .double) false
        else
          let br' := if c == '\x7b' then br + 1 else if c == '\x7d' then br - 1 else br
          let bk' := if c == '[' then bk + 1 else if c == ']' then bk - 1 else bk
          let pr' := if c == '(' then pr + 1 else if c == ')' then pr - 1 else pr
          if br' < 0 || bk' < 0 || pr' < 0 then false
          else bracketSpecGo cs br' bk' pr' none false

/-- Bracket balance as the claim states it (escape rule included). -/
def bracketBalanceSpec (s : List Char) : Bool :=
  bracketSpecGo s 0 0 0 none false

/-- The same specification pass without any backslash-escape rule: a
backslash is an ordinary character. -/
def bracketSpecNEGo : List Char → Int → Int → Int → Option QuoteKind → Bool
  | [], br, bk, pr, _ => br == 0 && bk == 0 && pr == 0
  | c :: cs, br, bk, pr, q =>
    match q with
    | some k =>
      if c == quoteKindChar k then bracketSpecNEGo cs br bk pr none
      else bracketSpecNEGo cs br bk pr (some k)
    | none =>
      if c == squote then bracketSpecNEGo cs br bk pr (some .single)
      else if c == '"' then bracketSpecNEGo cs br bk pr (some .double)
      else
        let br' := if c == '\x7b' then br + 1 else if c == '\x7d' then br - 1 else br
        let bk' := if c == '[' then bk + 1 else if c == ']' then bk - 1 else bk
        let pr' := if c == '(' then pr + 1 else if c == ')' then pr - 1 else pr
        if br' < 0 || bk' < 0 || pr' < 0 then false
        else bracketSpecNEGo cs br' bk' pr' none

/-- Bracket balance with quoted-region tracking but no escape rule. -/
def bracketBalanceSpecNE (s : List Char) : Bool :=
  bracketSpecNEGo s 0 0 0 none

/-- The claim's shebang classification: substring matches in the fixed
priority python, perl, ruby, sh/bash/zsh. -/
def shebangMatch (sheb : List Char) : Option ScriptType :=
  if strContains sheb "python".data then some .Python
  else if strContains sheb "perl".data then some .Perl
  else if strContains sheb "ruby".data then some .Ruby
  else if strContains sheb "sh".data || strContains sheb "bash".data ||
      strContains sheb "zsh".data then some .Shell
  else none

/-- The classifier exactly as the claim describes it: the shebang match
inspects only the interpreter token (the first whitespace token after
`#!`), and a shebang match takes priority over the content heuristics. -/
def detect_script_type_claimed (s : List Char) : ScriptType :=
  match (rustLines s).head? with
  | none => script.contentFallback s
  | some fl =>
    if leadsWith "#!".data fl then
      match shebangMatch (((splitWs (fl.drop 2)).head?).getD []) with
      | some t => t
      | none => script.contentFallback s
    else script.contentFallback s

/-- The whitespace tokens of the first line's shebang, used to state the
shebang-parser claim: empty when there is no line or no `#!` marker. -/
def shebangTokens (s : List Char) : List (List Char) :=
  match (rustLines s).head? with
  | none => []
  | some fl => if leadsWith "#!".data fl then splitWs (fl.drop 2) else []

/-! ## Refinement lemmas -/

/-- The quote-validation loop agrees with the specification's single
forward pass, under the correspondence between the two boolean flags and
the at-most-one open region of the specification state. -/
theorem validate_quotes_go_eq_spec (cs : List Char) :
    ∀ (st : Option QuoteKind) (esc : Bool),
      script.validate_quotes_go cs (st == some .single) (st == some .double) esc
        = ((cs.foldl quoteStepSpec (st, esc)).1 == none) := by
  induction cs with
  | nil =>
    intro st esc
    rcases st with _ | k
    · rfl
    · cases k <;> rfl
  | cons c cs ih =>
    intro st esc
    cases esc with
    | true => simpa [script.validate_quotes_go, quoteStepSpec] using ih st false
    | false =>
      by_cases hb : c = '\\'
      · subst hb
        simpa [script.validate_quotes_go, quoteStepSpec, squote] using ih st true
      · by_cases hs : c = squote
        · subst hs
          rcases st with _ | k
          · simpa [script.validate_quotes_go, quoteStepSpec, squote] using ih (some .single) false
          · cases k
            · simpa [script.validate_quotes_go, quoteStepSpec, squote] using ih none false
            · simpa [script.validate_quotes_go, quoteStepSpec, squote] using ih (some .double) false
        · by_cases hd : c = '"'
          · subst hd
            rcases st with _ | k
            · simpa [script.validate_quotes_go, quoteStepSpec, squote] using ih (some .double) false
            · cases k
              · simpa [script.validate_quotes_go, quoteStepSpec, squote] using ih (some .single) false
              · simpa [script.validate_quotes_go, quoteStepSpec, squote] using ih none false
          · simpa [script.validate_quotes_go, quoteStepSpec, hb, hs, hd] using ih st false

/-- C2: quote-balance validation is the specification's single forward
pass — tracking one open region at a time, ignoring the other quote kind
inside a region, with an unconditional backslash escape, failing exactly
when a region is open at end of text — and takes the claimed values on
the three example inputs. -/
theorem c2_quote_balance :
    (∀ s : List Char, script.validate_quotes s = quoteBalanceSpec s)
    ∧ script.validate_quotes ("echo ".data ++ squote :: "hello world".data ++ [squote]) = true
    ∧ script.validate_quotes ("echo ".data ++ squote :: "hello world".data) = false
    ∧ script.validate_quotes ("echo \"it".data ++ squote :: "s fine\"".data) = true := by
  refine ⟨fun s => ?_, by decide, by decide, by decide⟩
  simpa [script.validate_quotes, quoteBalanceSpec] using validate_quotes_go_eq_spec s none false


/-- The bracket-validation loop agrees with the escape-free
specification pass, relating the `(in_quote, quote_char)` pair of the
code to the specification's open-region state. -/
theorem validate_brackets_go_eq_specNE (cs : List Char) :
    ∀ (br bk pr : Int),
      (∀ qc, script.validate_brackets_go cs br bk pr false qc
          = bracketSpecNEGo cs br bk pr none)
      ∧ (∀ k, script.validate_brackets_go cs br bk pr true (quoteKindChar k)
          = bracketSpecNEGo cs br bk pr (some k)) := by
  induction cs with
  | nil => intro br bk pr; exact ⟨fun _ => rfl, fun _ => rfl⟩
  | cons c cs ih =>
    intro br bk pr
    constructor
    · intro qc
      by_cases hd : c = '"'
      · subst hd
        have e : ('"' == squote) = false := by simp [squote]
        simpa [script.validate_brackets_go, bracketSpecNEGo, quoteKindChar, e]
          using (ih br bk pr).2 .double
      · by_cases hsq : c = squote
        · subst hsq
          have e : (squote == '"') = false := by simp [squote]
          simpa [script.validate_brackets_go, bracketSpecNEGo, quoteKindChar, e]
            using (ih br bk pr).2 .single
        · have e1 : (c == '"') = false := beq_eq_false_iff_ne.mpr hd
          have e2 : (c == squote) = false := beq_eq_false_iff_ne.mpr hsq
          simp only [script.validate_brackets_go, bracketSpecNEGo, e1, e2,
            Bool.or_false, Bool.false_or, Bool.or_self, Bool.not_false, Bool.true_and,
            Bool.false_eq_true, if_false]
          exact if_congr Iff.rfl rfl (((ih _ _ _).1) qc)
    · intro k
      by_cases hc : c = quoteKindChar k
      · have e : (c == quoteKindChar k) = true := beq_iff_eq.mpr hc
        simp only [script.validate_brackets_go, bracketSpecNEGo, e, Bool.not_true,
          Bool.false_and, Bool.false_eq_true, if_false, if_true]
        exact ((ih br bk pr).1) (quoteKindChar k)
      · have e : (c == quoteKindChar k) = false := beq_eq_false_iff_ne.mpr hc
        simp only [script.validate_brackets_go, bracketSpecNEGo, e, Bool.not_true,
          Bool.false_and, Bool.false_eq_true, if_false]
        exact ((ih br bk pr).2) k

/-- C3 counterexample: on the text `\'[` the code accepts (the escaped
single quote still opens a quoted region, hiding the `[`), while the
claimed pass with the quote-balance escape rule rejects (the quote is
escaped, so the `[` is counted and left open). -/
theorem c3_counterexample :
    script.validate_brackets ['\\', squote, '['] = true
    ∧ bracketBalanceSpec ['\\', squote, '['] = false := by decide

/-- C3 as amended: bracket-balance validation keeps independent counters
for the three bracket pairs, skips brackets inside a quoted region
tracked like the quote-balance check but with no backslash-escape rule,
fails immediately on a negative counter, and succeeds exactly when all
three counters are zero at end of text. -/
theorem c3_bracket_balance (s : List Char) :
    script.validate_brackets s = bracketBalanceSpecNE s :=
  ((validate_brackets_go_eq_specNE s 0 0 0).1) nulChar

/-- Per-line loop of `hsGo` ignores the intensity flag, because
`highlight_line_simple` does. -/
theorem hsGo_intensity (ls : List (List Char)) (b1 b2 : Bool) :
    gccrs.hsGo b1 ls = gccrs.hsGo b2 ls := by
  induction ls with
  | nil => rfl
  | cons l ls ih =>
    simp only [gccrs.hsGo, gccrs.highlight_line_simple]
    rw [ih]

/-- C9: the highlighter's output — span boundaries, categories and all —
is identical under every pair of `HighlightScheme` values, both per line
and for the whole text; the scheme is consumed by `scheme_to_intensity`
and never influences tokenization. -/
theorem c9_scheme_independence :
    (∀ (s : List Char) (a b : HighlightScheme),
        gccrs.highlight_script_internal s a = gccrs.highlight_script_internal s b)
    ∧ (∀ (line : List Char) (a b : Bool),
        gccrs.highlight_line_simple line a = gccrs.highlight_line_simple line b) :=
  ⟨fun s _ _ => hsGo_intensity (rustLines s) _ _, fun _ _ _ => rfl⟩

/-- C5: the shebang parser returns exactly the head of the first line's
post-`#!` whitespace tokens as interpreter (`none` when the first line is
missing or lacks the marker, or when the shebang is empty), and the
argument parser returns those tokens in order truncated to the caller's
bound; the two spec examples evaluate as stated. -/
theorem c5_shebang_contract :
    (∀ (s : List Char) (max_args : Nat),
        exec.extract_shebang_interpreter s = (shebangTokens s).head?
        ∧ exec.extract_shebang_args s max_args = (shebangTokens s).take max_args)
    ∧ exec.extract_shebang_interpreter "#!/bin/bash\necho test\n".data
        = some "/bin/bash".data
    ∧ exec.extract_shebang_args "#!/bin/bash -e -x\necho test\n".data 10
        = ["/bin/bash".data, "-e".data, "-x".data]
    ∧ exec.extract_shebang_interpreter "#! \n".data = none := by
  refine ⟨fun s max_args => ?_, by decide, by decide, by decide⟩
  unfold exec.extract_shebang_interpreter exec.extract_shebang_args shebangTokens
  cases h : (rustLines s).head? with
  | none => simp
  | some fl =>
    by_cases hl : leadsWith "#!".data fl
    · simp only [hl, if_true]
      refine ⟨?_, by simp⟩
      cases hh : (splitWs (fl.drop 2)).head? <;> simp [hh]
    · simp [hl]

/-- A line is blank when its trim is empty. -/
def isBlankLine (l : List Char) : Bool := rustTrim l == []

/-- A line is a comment when it is not blank and its trimmed form starts
with `#`. -/
def isCommentLine (l : List Char) : Bool :=
  !(rustTrim l == []) && ((rustTrim l).head? == some '#')

/-- A line is code when it is neither blank nor a comment. -/
def isCodeLine (l : List Char) : Bool :=
  !(rustTrim l == []) && !((rustTrim l).head? == some '#')

/-- The statistics loop counts exactly the three disjoint line
predicates. -/
theorem statsGo_spec (ls : List (List Char)) :
    ∀ cm bl cd, script.statsGo ls cm bl cd
      = (cm + ls.countP isCommentLine, bl + ls.countP isBlankLine,
         cd + ls.countP isCodeLine) := by
  induction ls with
  | nil => intro cm bl cd; simp [script.statsGo]
  | cons l ls ih =>
    intro cm bl cd
    by_cases h1 : rustTrim l = []
    · simp [script.statsGo, h1, isBlankLine, isCommentLine, isCodeLine,
        List.countP_cons, ih]
      omega
    · by_cases h2 : (rustTrim l).head? = some '#'
      · simp [script.statsGo, h1, h2, isBlankLine, isCommentLine, isCodeLine,
          List.countP_cons, ih]
        omega
      · simp [script.statsGo, h1, h2, isBlankLine, isCommentLine, isCodeLine,
          List.countP_cons, ih]
        omega

/-- The three line categories are mutually exclusive and exhaustive. -/
theorem countP_lines_partition (ls : List (List Char)) :
    ls.countP isBlankLine + ls.countP isCommentLine + ls.countP isCodeLine
      = ls.length := by
  induction ls with
  | nil => simp
  | cons l ls ih =>
    by_cases h1 : rustTrim l = [] <;> by_cases h2 : (rustTrim l).head? = some '#' <;>
      simp [List.countP_cons, isBlankLine, isCommentLine, isCodeLine, h1, h2] <;>
      omega

/-- C7: the statistics satisfy
`code_lines + comment_lines + blank_lines = total_lines`, with each line
counted in exactly one of the categories blank (trim empty), comment
(trimmed starts with `#`) and code (otherwise). -/
theorem c7_stats_invariant (s : List Char) :
    (script.get_script_stats_counts s).code + (script.get_script_stats_counts s).comment +
        (script.get_script_stats_counts s).blank = (script.get_script_stats_counts s).total
    ∧ (script.get_script_stats_counts s).blank = (rustLines s).countP isBlankLine
    ∧ (script.get_script_stats_counts s).comment = (rustLines s).countP isCommentLine
    ∧ (script.get_script_stats_counts s).code = (rustLines s).countP isCodeLine
    ∧ (script.get_script_stats_counts s).total = (rustLines s).length := by
  have h := statsGo_spec (rustLines s) 0 0 0
  have hp := countP_lines_partition (rustLines s)
  simp [script.get_script_stats_counts, h]
  omega

/-- C4 counterexample: on `#!/a b-ruby` + Python-looking content the code
classifies Ruby, because it substring-matches the whole text after `#!`
(arguments included), while the claimed interpreter-token inspection
finds no shebang match and falls through to the content heuristics,
which give Python. -/
theorem c4_counterexample :
    script.detect_script_type_internal "#!/a b-ruby\nimport x\ndef f\n".data
        = ScriptType.Ruby
    ∧ detect_script_type_claimed "#!/a b-ruby\nimport x\ndef f\n".data
        = ScriptType.Python
    ∧ script.detect_script_type_internal "#!/a b-ruby\nimport x\ndef f\n".data
        ≠ detect_script_type_claimed "#!/a b-ruby\nimport x\ndef f\n".data := by
  refine ⟨by decide, by decide, by decide⟩

/-- C4 as amended: the classifier inspects the whole text after the `#!`
marker on the first line (interpreter path and arguments together) for
substring matches in the fixed priority python, perl, ruby, sh/bash/zsh,
such a match takes priority over all content heuristics, and the
`env python3` example classifies as Python. -/
theorem c4_shebang_priority :
    (∀ (s : List Char) (fl : List Char) (ty : ScriptType),
        (rustLines s).head? = some fl →
        leadsWith "#!".data fl = true →
        shebangMatch (fl.drop 2) = some ty →
        script.detect_script_type_internal s = ty)
    ∧ script.detect_script_type_internal
        ("#!/usr/bin/env python3\nprint(".data ++ squote :: 'x' :: squote :: ")\n".data)
        = ScriptType.Python := by
  refine ⟨fun s fl ty hfl hstart hmatch => ?_, by decide⟩
  unfold script.detect_script_type_internal
  rw [hfl]
  simp only [hstart, if_true]
  unfold shebangMatch at hmatch
  split_ifs at hmatch ⊢ <;> simp_all

/-- Witness for the amended C4 theorem at a concrete ruby shebang. -/
theorem c4_shebang_priority_witness :
    script.detect_script_type_internal "#!/usr/bin/ruby\nx\n".data = ScriptType.Ruby :=
  c4_shebang_priority.1 "#!/usr/bin/ruby\nx\n".data "#!/usr/bin/ruby".data .Ruby
    (by decide) (by decide) (by decide)

/-- Once past the window, the metadata loop of `src/script.rs` returns
regardless of the remaining lines. -/
theorem emGo_stop (ls : List (List Char)) (n : Nat) (inH : Bool)
    (acc : List (List Char)) (h : n > 50) :
    script.emGo ls n inH acc = acc.reverse := by
  cases ls with
  | nil => rfl
  | cons l ls => simp [script.emGo, h]

/-- The metadata loop of `src/script.rs` reads only the first `51 - n`
remaining lines. -/
theorem emGo_take (ls1 : List (List Char)) : ∀ (ls2 : List (List Char)) (n : Nat)
    (inH : Bool) (acc : List (List Char)),
    ls1.take (51 - n) = ls2.take (51 - n) →
    script.emGo ls1 n inH acc = script.emGo ls2 n inH acc := by
  induction ls1 with
  | nil =>
    intro ls2 n inH acc h
    rcases Nat.lt_or_ge n 51 with hn | hn
    · have : ls2 = [] := by
        obtain ⟨m, hm⟩ : ∃ m, 51 - n = m + 1 := ⟨50 - n, by omega⟩
        cases ls2 with
        | nil => rfl
        | cons l ls =>
          rw [List.take_nil, hm, List.take_succ_cons] at h
          exact absurd h (by simp)
      subst this; rfl
    · rw [emGo_stop ls2 n inH acc (by omega)]; rfl
  | cons l ls1 ih =>
    intro ls2 n inH acc h
    rcases Nat.lt_or_ge n 51 with hn | hn
    · have h50 : ∃ m, 51 - n = m + 1 := ⟨50 - n, by omega⟩
      obtain ⟨m, hm⟩ := h50
      rw [hm] at h
      cases ls2 with
      | nil => simp at h
      | cons l2 ls2 =>
        simp only [List.take_succ_cons, List.cons.injEq] at h
        obtain ⟨rfl, ht⟩ := h
        have ht' : ls1.take (51 - (n + 1)) = ls2.take (51 - (n + 1)) := by
          have : 51 - (n + 1) = m := by omega
          rw [this]; exact ht
        simp only [script.emGo]
        split_ifs with hgt htrim hhash hshe
        · rfl
        · exact ih ls2 (n + 1) inH acc ht'
        · cases script.extract_metadata_from_comment (rustTrim (List.drop 1 (rustTrim l))) with
          | panic => rfl
          | noMatch => exact ih ls2 (n + 1) inH acc ht'
          | found m2 => exact ih ls2 (n + 1) inH (m2 :: acc) ht'
        · exact ih ls2 (n + 1) inH _ ht'
        · exact ih ls2 (n + 1) false acc ht' 
    · rw [emGo_stop (l :: ls1) n inH acc (by omega),
        emGo_stop ls2 n inH acc (by omega)]

/-- Once past its 20-line window, the metadata loop of
`gccrs-src/runepkg_script.rs` returns regardless of remaining lines. -/
theorem emGoG_stop (ls : List (List Char)) (n : Nat) (acc : List Char)
    (h : n ≥ 20) : gccrs.emGoG ls n acc = acc := by
  cases ls with
  | nil => rfl
  | cons l ls => simp [gccrs.emGoG, h]

/-- The metadata loop of `gccrs-src/runepkg_script.rs` reads only the
first `20 - n` remaining lines. -/
theorem emGoG_take (ls1 : List (List Char)) : ∀ (ls2 : List (List Char)) (n : Nat)
    (acc : List Char),
    ls1.take (20 - n) = ls2.take (20 - n) →
    gccrs.emGoG ls1 n acc = gccrs.emGoG ls2 n acc := by
  induction ls1 with
  | nil =>
    intro ls2 n acc h
    rcases Nat.lt_or_ge n 20 with hn | hn
    · have : ls2 = [] := by
        obtain ⟨m, hm⟩ : ∃ m, 20 - n = m + 1 := ⟨19 - n, by omega⟩
        cases ls2 with
        | nil => rfl
        | cons l ls =>
          rw [List.take_nil, hm, List.take_succ_cons] at h
          exact absurd h (by simp)
      subst this; rfl
    · rw [emGoG_stop ls2 n acc hn]; rfl
  | cons l ls1 ih =>
    intro ls2 n acc h
    rcases Nat.lt_or_ge n 20 with hn | hn
    · obtain ⟨m, hm⟩ : ∃ m, 20 - n = m + 1 := ⟨19 - n, by omega⟩
      rw [hm] at h
      cases ls2 with
      | nil => simp at h
      | cons l2 ls2 =>
        simp only [List.take_succ_cons, List.cons.injEq] at h
        obtain ⟨rfl, ht⟩ := h
        have ht' : ls1.take (20 - (n + 1)) = ls2.take (20 - (n + 1)) := by
          have : 20 - (n + 1) = m := by omega
          rw [this]; exact ht
        simp only [gccrs.emGoG]
        split_ifs
        all_goals first
          | rfl
          | exact ih ls2 (n + 1) _ ht'
    · rw [emGoG_stop (l :: ls1) n acc hn, emGoG_stop ls2 n acc hn]

/-- 50 blank lines followed by an `author` comment on the 51st line. -/
def metaWindowA : List Char := List.replicate 50 '\n' ++ "# author: x".data

/-- The same first 50 lines with nothing after them. -/
def metaWindowB : List Char := List.replicate 50 '\n'

/-- C6 counterexample: the two texts agree on their first 50 lines (and a
fortiori their first 20), yet `src/script.rs` metadata extraction
differs, because its loop breaks only once the zero-based line number
exceeds 50 and so also reads the 51st line. -/
theorem c6_counterexample :
    (rustLines metaWindowA).take 50 = (rustLines metaWindowB).take 50
    ∧ (rustLines metaWindowA).take 20 = (rustLines metaWindowB).take 20
    ∧ script.extract_metadata_internal metaWindowA = some "Author: x".data
    ∧ script.extract_metadata_internal metaWindowB = some "No metadata found".data
    ∧ script.extract_metadata_internal metaWindowA
        ≠ script.extract_metadata_internal metaWindowB :=
  ⟨by decide, by decide, by decide, by decide, by decide⟩

/-- C6 as amended: metadata extraction reads a bounded leading window of
lines — the first 51 lines in the full variant (`src/script.rs`), the
first 20 in the minimal variant (`gccrs-src/runepkg_script.rs`) — and no
line after the window contributes to the output. -/
theorem c6_metadata_window :
    (∀ s t : List Char,
        (rustLines s).take 51 = (rustLines t).take 51 →
        script.extract_metadata_internal s = script.extract_metadata_internal t)
    ∧ (∀ s t : List Char,
        (rustLines s).take 20 = (rustLines t).take 20 →
        gccrs.extract_metadata_internal s = gccrs.extract_metadata_internal t) := by
  constructor
  · intro s t h
    unfold script.extract_metadata_internal
    rw [emGo_take (rustLines s) (rustLines t) 0 true [] (by simpa using h)]
  · intro s t h
    unfold gccrs.extract_metadata_internal
    rw [emGoG_take (rustLines s) (rustLines t) 0 [] (by simpa using h)]

/-- Witness for the window theorem: texts differing only past the window
yield identical metadata in both variants. -/
theorem c6_metadata_window_witness :
    script.extract_metadata_internal (List.replicate 51 '\n' ++ "# author: x".data)
        = script.extract_metadata_internal (List.replicate 51 '\n' ++ "# version: y".data)
    ∧ gccrs.extract_metadata_internal (List.replicate 20 '\n' ++ "# author: x".data)
        = gccrs.extract_metadata_internal (List.replicate 20 '\n' ++ "# version: y".data) :=
  ⟨c6_metadata_window.1 _ _ (by decide), c6_metadata_window.2 _ _ (by decide)⟩

/-- C8: with a null buffer, a non-positive length, or bytes that do not
decode as UTF-8, every modelled entry point returns its sentinel —
`Unknown` for type detection, the null pointer for the string-returning
entry points — and invalid encoding takes the same path as invalid
input. -/
theorem c8_invalid_input_sentinel :
    ∀ (content : Option (List Nat)) (len : Int) (scheme : HighlightScheme),
      (content = none ∨ len ≤ 0 ∨
        ∃ bytes, content = some bytes ∧ utf8Decode? (bytes.take len.toNat) = none) →
      script.rust_detect_script_type content len = ScriptType.Unknown
      ∧ script.rust_extract_script_metadata content len = some CStrResult.null
      ∧ script.rust_get_script_stats content len = CStrResult.null
      ∧ exec.rust_parse_shebang content len = CStrResult.null
      ∧ gccrs.rust_highlight_shell_script content len scheme = some CStrResult.null := by
  intro content len scheme h
  rcases h with rfl | h | ⟨bytes, rfl, hdec⟩
  · exact ⟨rfl, rfl, rfl, rfl, rfl⟩
  · cases content with
    | none => exact ⟨rfl, rfl, rfl, rfl, rfl⟩
    | some bytes =>
      refine ⟨?_, ?_, ?_, ?_, ?_⟩ <;>
        simp [script.rust_detect_script_type, script.rust_extract_script_metadata,
          script.rust_get_script_stats, exec.rust_parse_shebang,
          gccrs.rust_highlight_shell_script, h]
  · by_cases hl : len ≤ 0 <;>
      refine ⟨?_, ?_, ?_, ?_, ?_⟩ <;>
        simp [script.rust_detect_script_type, script.rust_extract_script_metadata,
          script.rust_get_script_stats, exec.rust_parse_shebang,
          gccrs.rust_highlight_shell_script, hl, hdec]

/-- Witness for the sentinel theorem at the invalid UTF-8 byte `0xFF`. -/
theorem c8_invalid_input_sentinel_witness :
    script.rust_detect_script_type (some [0xFF]) 1 = ScriptType.Unknown
    ∧ script.rust_extract_script_metadata (some [0xFF]) 1 = some CStrResult.null
    ∧ script.rust_get_script_stats (some [0xFF]) 1 = CStrResult.null
    ∧ exec.rust_parse_shebang (some [0xFF]) 1 = CStrResult.null
    ∧ gccrs.rust_highlight_shell_script (some [0xFF]) 1 HighlightScheme.Nano
        = some CStrResult.null :=
  c8_invalid_input_sentinel (some [0xFF]) 1 .Nano
    (Or.inr (Or.inr ⟨[0xFF], rfl, by decide⟩))

/-- C1 evaluation at the failing input: on the line `§§#` (each `§` is
two UTF-8 bytes) the highlighter's comment branch slices the line at
byte index 2 while the loop index 2 counts characters, so the stripped
output `§§§#` duplicates a character instead of reconstructing the line;
on the line `§#` the byte index falls inside a multi-byte character and
the code panics. -/
theorem c1_comment_byte_slice :
    (gccrs.highlight_script_internal "§§#".data .Nano).map gccrs.stripAnsi
        = some "§§§#\n".data
    ∧ "§§§#\n".data ≠ "§§#\n".data
    ∧ gccrs.highlight_line_simple "§#".data false = none := by
  refine ⟨?_, by decide, ?_⟩
  · simp [gccrs.highlight_script_internal, gccrs.hsGo, gccrs.highlight_line_simple,
      gccrs.hlsGo, byteDrop, utf8Len, gccrs.isRustAlphabetic, gccrs.isOpChar, rustLines,
      splitOnNl, stripCr, gccrs.stripAnsi, gccrs.stripAnsiGo, gccrs.COLOR_COMMENT,
      gccrs.COLOR_RESET, squote, escChar]
  · simp [gccrs.highlight_line_simple, gccrs.hlsGo, byteDrop, utf8Len,
      gccrs.isRustAlphabetic, gccrs.isOpChar, squote]

/-- A suffix is recovered by dropping the length difference. -/
theorem suffix_drop_eq {rest line : List Char} (h : rest <:+ line) :
    line.drop (line.length - rest.length) = rest := by
  obtain ⟨pre, rfl⟩ := h
  have hlen : (pre ++ rest).length - rest.length = pre.length := by
    simp only [List.length_append]; omega
  rw [hlen, List.drop_left]

/-- Every character of the still-unscanned suffix appears in a
successful output of the highlighter loop: each branch pushes every
character it consumes (the comment branch pushes a byte-sliced tail that
starts at or before the current position). -/
theorem hlsGo_mem (line : List Char) :
    ∀ (rest out : List Char), rest <:+ line → gccrs.hlsGo line rest = some out →
      ∀ c ∈ rest, c ∈ out := by
  have H : ∀ (n : Nat) (rest out : List Char), rest.length ≤ n → rest <:+ line →
      gccrs.hlsGo line rest = some out → ∀ c ∈ rest, c ∈ out := by
    intro n
    induction n with
    | zero =>
      intro rest out hl hsuf hgo c hc
      cases rest with
      | nil => simp at hc
      | cons a as => simp at hl
    | succ n ih =>
      intro rest out hl hsuf hgo x hx
      cases rest with
      | nil => simp at hx
      | cons c cs =>
        rw [gccrs.hlsGo] at hgo
        split_ifs at hgo with h1 h2 h3 h4 h5
        · -- comment branch
          cases hbd : byteDrop (line.length - (c :: cs).length) line with
          | none => rw [hbd] at hgo; exact absurd hgo (by simp)
          | some tail =>
            rw [hbd] at hgo
            obtain ⟨k, hk, rfl⟩ := byteDrop_eq_drop hbd
            have hin : (c :: cs) <:+ line.drop k := by
              have hd := suffix_drop_eq hsuf
              have : line.drop (line.length - (c :: cs).length)
                  = (line.drop k).drop (line.length - (c :: cs).length - k) := by
                rw [List.drop_drop]
                congr 1
                omega
              rw [this] at hd
              rw [← hd]
              exact List.drop_suffix _ _
            have hx' : x ∈ line.drop k := hin.subset hx
            have : some (gccrs.COLOR_COMMENT ++ line.drop k ++ gccrs.COLOR_RESET) = some out := hgo
            rw [← Option.some.inj this]
            simp [hx']
        · -- string-literal branch
          obtain ⟨k, hk, rfl⟩ := Option.map_eq_some'.mp hgo
          rcases List.mem_cons.mp hx with rfl | hx2
          · simp
          · rcases gccrs.quoteScan_mem c cs x hx2 with hq | hq
            · simp [hq]
            · have hsuf' : (gccrs.quoteScan c cs).2 <:+ line :=
                (gccrs.quoteScan_suffix c cs).trans ((List.suffix_cons c cs).trans hsuf)
              have hlen' : (gccrs.quoteScan c cs).2.length ≤ n := by
                have := gccrs.quoteScan_length c cs
                simp only [List.length_cons] at hl
                omega
              have := ih _ k hlen' hsuf' hk x hq
              simp [this]
        · -- variable branch
          obtain ⟨k, hk, rfl⟩ := Option.map_eq_some'.mp hgo
          rcases List.mem_cons.mp hx with rfl | hx2
          · simp
          · have hsplit : x ∈ cs.takeWhile gccrs.varChar ∨ x ∈ cs.dropWhile gccrs.varChar := by
              rw [← List.mem_append, List.takeWhile_append_dropWhile]
              exact hx2
            rcases hsplit with hq | hq
            · simp [hq]
            · have hsuf' : cs.dropWhile gccrs.varChar <:+ line :=
                (List.dropWhile_suffix _).trans ((List.suffix_cons c cs).trans hsuf)
              have hlen' : (cs.dropWhile gccrs.varChar).length ≤ n := by
                have := length_dropWhile_le' gccrs.varChar cs
                simp only [List.length_cons] at hl
                omega
              have := ih _ k hlen' hsuf' hk x hq
              simp [this]
        · -- word branch
          obtain ⟨k, hk, rfl⟩ := Option.map_eq_some'.mp hgo
          have hw : ∀ y, y ∈ c :: cs.takeWhile gccrs.wordChar →
              y ∈ (if gccrs.is_shell_keyword (c :: cs.takeWhile gccrs.wordChar) then
                gccrs.COLOR_KEYWORD ++ (c :: cs.takeWhile gccrs.wordChar) ++ gccrs.COLOR_RESET
                else c :: cs.takeWhile gccrs.wordChar) ++ k := by
            intro y hy
            split_ifs <;>
              (rcases List.mem_cons.mp hy with rfl | hys
               · simp
               · simp [hys])
          rcases List.mem_cons.mp hx with rfl | hx2
          · exact hw x (by simp)
          · have hsplit : x ∈ cs.takeWhile gccrs.wordChar ∨ x ∈ cs.dropWhile gccrs.wordChar := by
              rw [← List.mem_append, List.takeWhile_append_dropWhile]
              exact hx2
            rcases hsplit with hq | hq
            · exact hw x (by simp [hq])
            · have hsuf' : cs.dropWhile gccrs.wordChar <:+ line :=
                (List.dropWhile_suffix _).trans ((List.suffix_cons c cs).trans hsuf)
              have hlen' : (cs.dropWhile gccrs.wordChar).length ≤ n := by
                have := length_dropWhile_le' gccrs.wordChar cs
                simp only [List.length_cons] at hl
                omega
              have := ih _ k hlen' hsuf' hk x hq
              simp [this]
        · -- operator branch
          obtain ⟨k, hk, rfl⟩ := Option.map_eq_some'.mp hgo
          rcases List.mem_cons.mp hx with rfl | hx2
          · simp
          · have hsuf' : cs <:+ line := (List.suffix_cons c cs).trans hsuf
            have hlen' : cs.length ≤ n := by
              simp only [List.length_cons] at hl; omega
            have := ih _ k hlen' hsuf' hk x hx2
            simp [this]
        · -- plain-character branch
          obtain ⟨k, hk, rfl⟩ := Option.map_eq_some'.mp hgo
          rcases List.mem_cons.mp hx with rfl | hx2
          · simp
          · have hsuf' : cs <:+ line := (List.suffix_cons c cs).trans hsuf
            have hlen' : cs.length ≤ n := by
              simp only [List.length_cons] at hl; omega
            have := ih _ k hlen' hsuf' hk x hx2
            simp [this]
  exact fun rest out => H rest.length rest out (Nat.le_refl _)

/-- A non-newline character of the text lands in one of the parts of
`splitOnNl`. -/
theorem mem_splitOnNl {c : Char} (hc : c ≠ '\n') :
    ∀ s : List Char, c ∈ s → ∃ p ∈ splitOnNl s, c ∈ p := by
  intro s
  induction s with
  | nil => simp
  | cons d ds ih =>
    intro h
    rcases List.mem_cons.mp h with rfl | h
    · simp only [splitOnNl, if_neg hc]
      cases hsp : splitOnNl ds with
      | nil => exact ⟨[c], by simp, by simp⟩
      | cons p ps => exact ⟨c :: p, by simp, by simp⟩
    · obtain ⟨p, hp, hcp⟩ := ih h
      by_cases hd : d = '\n'
      · subst hd
        exact ⟨p, by simp [splitOnNl, hp], hcp⟩
      · simp only [splitOnNl, if_neg hd]
        cases hsp : splitOnNl ds with
        | nil => rw [hsp] at hp; simp at hp
        | cons p0 ps =>
          rw [hsp] at hp
          rcases List.mem_cons.mp hp with rfl | hp2
          · exact ⟨d :: p, by simp, List.mem_cons_of_mem d hcp⟩
          · exact ⟨p, by simp [hp2], hcp⟩

/-- A character other than a newline or carriage return lands in one of
the lines of `rustLines`. -/
theorem mem_rustLines {c : Char} (hn : c ≠ '\n') (hr : c ≠ '\r')
    (s : List Char) (hc : c ∈ s) : ∃ l ∈ rustLines s, c ∈ l := by
  obtain ⟨p, hp, hcp⟩ := mem_splitOnNl hn s hc
  have hstrip : ∀ q : List Char, c ∈ q → c ∈ stripCr q := by
    intro q hq
    unfold stripCr
    split_ifs with h
    · have hne : q ≠ [] := by rintro rfl; simp at h
      have hlast : q.getLast hne = '\r' := by
        rwa [List.getLast?_eq_getLast q hne, Option.some.injEq] at h
      have hdec : q.dropLast ++ [q.getLast hne] = q := List.dropLast_append_getLast hne
      rw [← hdec] at hq
      rcases List.mem_append.mp hq with h1 | h1
      · exact h1
      · rw [hlast] at h1
        simp at h1
        exact absurd h1 hr
    · exact hq
  unfold rustLines
  dsimp only
  split_ifs with hlast
  · have hpne : p ≠ [] := by rintro rfl; simp at hcp
    have hne : splitOnNl s ≠ [] := by
      rintro h0; rw [h0] at hlast; simp at hlast
    have hglast : (splitOnNl s).getLast hne = [] := by
      rwa [List.getLast?_eq_getLast _ hne, Option.some.injEq] at hlast
    have hdec : (splitOnNl s).dropLast ++ [(splitOnNl s).getLast hne] = splitOnNl s :=
      List.dropLast_append_getLast hne
    have hp' : p ∈ (splitOnNl s).dropLast := by
      rw [← hdec] at hp
      rcases List.mem_append.mp hp with h1 | h1
      · exact h1
      · rw [hglast] at h1
        simp at h1
        exact absurd h1 hpne
    exact ⟨stripCr p, List.mem_map_of_mem stripCr hp', hstrip p hcp⟩
  · exact ⟨stripCr p, List.mem_map_of_mem stripCr hp, hstrip p hcp⟩

/-- Every character of every line survives into a successful whole-text
highlight output. -/
theorem hsGo_mem (b : Bool) :
    ∀ (ls : List (List Char)) (out : List Char), gccrs.hsGo b ls = some out →
      ∀ l ∈ ls, ∀ x ∈ l, x ∈ out := by
  intro ls
  induction ls with
  | nil => intro out h l hl; simp at hl
  | cons l0 ls ih =>
    intro out h l hl x hx
    unfold gccrs.hsGo at h
    cases hh : gccrs.highlight_line_simple l0 b with
    | none => rw [hh] at h; exact absurd h (by simp)
    | some hline =>
      rw [hh] at h
      obtain ⟨k, hk, rfl⟩ := Option.map_eq_some'.mp h
      rcases List.mem_cons.mp hl with rfl | hl2
      · have hx' : x ∈ hline :=
          hlsGo_mem l l hline (List.suffix_refl l) hh x hx
        simp [hx']
      · have hx' : x ∈ k := ih k hk l hl2 x hx
        simp [hx']

/-- A NUL character in the text survives into a successful whole-text
highlight output. -/
theorem nul_mem_highlight {s out : List Char} {scheme : HighlightScheme}
    (h : gccrs.highlight_script_internal s scheme = some out)
    (hnul : nulChar ∈ s) : nulChar ∈ out := by
  obtain ⟨l, hl, hcl⟩ := mem_rustLines (by decide) (by decide) s hnul
  exact hsGo_mem (gccrs.scheme_to_intensity scheme) (rustLines s) out h l hl nulChar hcl

/-- C10 counterexample: the single byte `0x00` passes the null-pointer,
positive-length and UTF-8 checks and contains an interior NUL, yet the
metadata entry point returns the non-null string `No metadata found` —
the NUL never reaches the produced metadata, so `CString::new`
succeeds. -/
theorem c10_counterexample :
    utf8Decode? [0] = some [nulChar]
    ∧ nulChar ∈ [nulChar]
    ∧ script.rust_extract_script_metadata (some [0]) 1
        = some (CStrResult.str "No metadata found".data)
    ∧ some (CStrResult.str "No metadata found".data) ≠ some CStrResult.null :=
  ⟨by decide, by decide, by decide, by decide⟩

/-- The comment line `#KKKKauthor:x` followed by a NUL: four Kelvin
signs (U+212A, three UTF-8 bytes each) whose lowercase is the one-byte
`k`, so the byte position of `author:` in the lowered comment (4) plus
the pattern length (7) lands inside the fourth Kelvin sign of the
original comment and the Rust slice `comment[11..]` panics. -/
def kelvinPanicText : List Char :=
  '#' :: List.replicate 4 (Char.ofNat 0x212A) ++ "author:x".data ++ [nulChar]

/-- The UTF-8 encoding of `kelvinPanicText`. -/
def kelvinPanicBytes : List Nat :=
  [0x23, 0xE2, 0x84, 0xAA, 0xE2, 0x84, 0xAA, 0xE2, 0x84, 0xAA, 0xE2, 0x84, 0xAA,
   0x61, 0x75, 0x74, 0x68, 0x6F, 0x72, 0x3A, 0x78, 0x00]

/-- C10 as amended: for an input passing the boundary checks whose text
contains a NUL, the highlighting entry point returns the null sentinel
whenever its tokenizer completes without panicking (every input
character, the NUL included, survives into the highlighted text, which
then cannot be materialized as a C string). The metadata entry point
gives no such guarantee: when its extraction completes without
panicking it returns the null sentinel exactly when a NUL survives into
the produced metadata string (a non-null result otherwise, as the
counterexample shows), and its comment-field slicing can panic outright
— the Kelvin-sign input passes all checks, contains a NUL, and the
entry point panics instead of returning any sentinel. -/
theorem c10_nul_null_sentinel :
    (∀ (bytes : List Nat) (len : Int) (scheme : HighlightScheme) (s out : List Char),
        0 < len →
        utf8Decode? (bytes.take len.toNat) = some s →
        nulChar ∈ s →
        gccrs.highlight_script_internal s scheme = some out →
        gccrs.rust_highlight_shell_script (some bytes) len scheme = some CStrResult.null)
    ∧ (∀ (bytes : List Nat) (len : Int) (s m : List Char),
        0 < len →
        utf8Decode? (bytes.take len.toNat) = some s →
        script.extract_metadata_internal s = some m →
        script.rust_extract_script_metadata (some bytes) len
          = some (if m.contains nulChar then CStrResult.null else CStrResult.str m))
    ∧ utf8Decode? kelvinPanicBytes = some kelvinPanicText
    ∧ nulChar ∈ kelvinPanicText
    ∧ script.extract_metadata_internal kelvinPanicText = none
    ∧ script.rust_extract_script_metadata (some kelvinPanicBytes) 22 = none := by
  refine ⟨?_, ?_, by decide, by decide, by decide, by decide⟩
  · intro bytes len scheme s out hlen hdec hnul hout
    have hmem : nulChar ∈ out := nul_mem_highlight hout hnul
    have hcont : out.contains nulChar = true := by
      simpa [List.contains] using List.elem_eq_true_of_mem hmem
    simp [gccrs.rust_highlight_shell_script, show ¬len ≤ 0 by omega, hdec, hout, hcont, hmem]
  · intro bytes len s m hlen hdec hm
    simp [script.rust_extract_script_metadata, show ¬len ≤ 0 by omega, hdec, hm]

/-- Witness for the amended C10 theorem: the two-byte input `a\x00`
highlights without panicking and the entry point returns the null
sentinel; the one-byte input `\x00` extracts metadata without panicking
and exercises the conditional metadata conjunct. -/
theorem c10_nul_null_sentinel_witness :
    gccrs.rust_highlight_shell_script (some [97, 0]) 2 HighlightScheme.Nano
        = some CStrResult.null
    ∧ script.rust_extract_script_metadata (some [0]) 1
        = some (if ("No metadata found".data.contains nulChar) then CStrResult.null
                else CStrResult.str "No metadata found".data) :=
  ⟨c10_nul_null_sentinel.1 [97, 0] 2 .Nano ['a', nulChar] ['a', nulChar, '\n']
      (by decide) (by decide) (by decide)
      (by simp [gccrs.highlight_script_internal, gccrs.hsGo, gccrs.highlight_line_simple,
        gccrs.hlsGo, byteDrop, utf8Len, gccrs.isRustAlphabetic, gccrs.isOpChar, rustLines,
        splitOnNl, stripCr, squote, nulChar, gccrs.wordChar, gccrs.isRustAlphanumeric,
        gccrs.is_shell_keyword]),
   c10_nul_null_sentinel.2.1 [0] 1 [nulChar] "No metadata found".data
      (by decide) (by decide) (by decide)⟩
